import Mathlib

/-!
Shallow embedding of the mongo-tools release tooling (`release/release.go`).

The repository is a single-binary release pipeline: it assembles platform
packages (tarball/zip/RPM/DEB/MSI), computes checksums, and publishes signed
artifacts plus a JSON version feed to object storage.  The embedding below
translates the pure logic of that file: Go's `strings.Replace` and `path.Ext`
are reproduced on `List Char`/`String`, and the side-effecting pipeline
(`uploadRelease`, `buildMSI`) is embedded as a pure function from an explicit
collaborator environment to a trace of events plus an optional fatal error
(Go's `log.Fatalf`/`panic` terminate the process, so nothing after a fatal
error is observed).

Collaborator packages (`version`, `platform`, `evergreen`, `aws`, `env`,
`download`) are part of the repository but their sources are not available
here; they are modelled from the spec's interface section as parameters of the
environment.
-/

namespace MongoToolsRelease

/-! ## Go `strings.Replace` on `List Char`

`goReplace old new fuel s n` is Go's `strings.Replace(s, old, new, n)`:
replace up to `n` non-overlapping leftmost instances of `old` by `new`
(`n < 0` means no limit; `old = ""` matches at every rune boundary including
both ends).  The extra `fuel` argument makes the recursion structural; every
caller passes `s.length`, which is always enough fuel, so the `fuel = 0`
fallback row for a nonempty string is never reached from `stringsReplace`. -/
def goReplace (old new : List Char) : Nat → List Char → Int → List Char
  | _, [], n =>
    if old = new ∨ n = 0 then [] else if old = [] then new else []
  | 0, s, _ => s
  | fuel + 1, c :: rest, n =>
    if old = new ∨ n = 0 then c :: rest
    else if old = [] then new ++ c :: goReplace old new fuel rest (n - 1)
    else if old.isPrefixOf (c :: rest) then
      new ++ goReplace old new fuel ((c :: rest).drop old.length) (n - 1)
    else c :: goReplace old new fuel rest n

/-- Go `strings.Replace(s, old, new, n)`. -/
def stringsReplace (s old new : List Char) (n : Int) : List Char :=
  goReplace old new s.length s n

/-- `hasSub pat s = true` iff `pat` occurs as a contiguous substring of `s`. -/
def hasSub (pat : List Char) : List Char → Bool
  | [] => pat.isPrefixOf []
  | c :: rest => pat.isPrefixOf (c :: rest) || hasSub pat rest

/-! ## The metadata placeholder tokens (`installer/rpm/*.spec`, `installer/deb/control`) -/

def tokVersion : List Char := "@TOOLS_VERSION@".toList

def tokRelease : List Char := "@TOOLS_RELEASE@".toList

def tokArchitecture : List Char := "@ARCHITECTURE@".toList

/-- The substitution performed by `createSpecFile` inside `buildRPM`
(release.go lines 299-301): all three tokens replaced with limit `-1`
(every occurrence). -/
def rpmSpecContent (content rpmVersion rpmRelease arch : List Char) : List Char :=
  stringsReplace
    (stringsReplace
      (stringsReplace content tokVersion rpmVersion (-1))
      tokRelease rpmRelease (-1))
    tokArchitecture arch (-1)

/-- The substitution performed by `createControlFile` inside `buildDeb`
(release.go lines 403-405): `@TOOLS_VERSION@` replaced everywhere (limit
`-1`), `@ARCHITECTURE@` replaced with limit `1` (first occurrence only), and
`@TOOLS_RELEASE@` not replaced at all. -/
def debControlContent (content toolsVersion debianArch : List Char) : List Char :=
  stringsReplace
    (stringsReplace content tokVersion toolsVersion (-1))
    tokArchitecture debianArch 1

/-! ## Go `path.Ext`

`path.Ext(p)` returns the suffix of `p` beginning at the final dot in the
final slash-separated element; empty if there is no dot. -/

/-- Scan the reversed string: collect up to and including the first `.`,
abort on `/` or at the start. -/
def extFromRev : List Char → Option (List Char)
  | [] => none
  | c :: rest =>
    if c = '/' then none
    else if c = '.' then some [c]
    else (extFromRev rest).map (· ++ [c])

/-- Go `path.Ext`. -/
def pathExt (s : String) : String :=
  String.mk ((extFromRev s.toList.reverse).getD [])

/-! ## Version

Modelled from the spec: the `version` collaborator package is not in `src/`.
Spec: "Version: {major, minor, patch, pre-release tag or none, source
commit}. Invariant: stable ⇔ pre-release tag is absent"; `String` renders
`major.minor.patch` plus `-pre` when a pre-release tag is present, and
`StringWithoutPre` drops the tag. -/
structure Version where
  major : Nat
  minor : Nat
  patch : Nat
  pre : String
  commit : String
deriving DecidableEq

/-- Modelled from the spec: stable ⇔ pre-release tag absent (`v.IsStable()`). -/
def isStable (v : Version) : Bool := v.pre = ""

/-- Modelled from the spec: `v.String()`. -/
def versionString (v : Version) : String :=
  toString v.major ++ "." ++ toString v.minor ++ "." ++ toString v.patch ++
    (if v.pre = "" then "" else "-" ++ v.pre)

/-- Modelled from the spec: `v.StringWithoutPre()`. -/
def versionStringWithoutPre (v : Version) : String :=
  toString v.major ++ "." ++ toString v.minor ++ "." ++ toString v.patch

/-! ## Collaborator data (CI tasks, platform matrix, artifacts)

Modelled from the spec's external-interface section: `Task = {taskID,
variant, displayName, isPatch}`, `Artifact = {download URL}`, platform
matrix lookup `getByVariant`, matrix size `count`, and per-platform
`artifactExtensions`. -/

structure Task where
  taskId : String
  variant : String
  displayName : String
  isPatch : Bool
deriving DecidableEq

structure Artifact where
  url : String
deriving DecidableEq

structure Platform where
  name : String
  arch : String
  artifactExtensions : List String
deriving DecidableEq

/-- The collaborator environment of one `uploadRelease` invocation.  Function
fields model the out-of-`src/` collaborator packages (`evergreen`,
`platform`, `aws`, the HTTP download, and the checksum primitives).

Modelled from the spec where the collaborator is outside `src/`:
`uploadOk` is the object-storage collaborator `uploadFile(bucket, prefix,
localPath)` with "no return value beyond success/failure" — `uploadOk f`
tells whether the upload of local file `f` succeeds.  `content url` is the
body served at `url`; `md5`/`sha1`/`sha256` are the digest primitives
applied to file contents. -/
structure Env where
  tasks : List Task
  getByVariant : String → Option Platform
  platformCount : Nat
  artifactsFor : Task → List Artifact
  content : String → String
  md5 : String → String
  sha1 : String → String
  sha256 : String → String
  uploadOk : String → Bool

/-- One observable step of the pipeline, in execution order.  `log.Fatalf`
terminates the Go process, so a run is a trace of the events that happened
before the optional fatal error. -/
inductive Event where
  | patchNotice
  | download (url : String) (dst : String)
  | upload (filename : String) (ok : Bool)
  | feedUpload (filename : String)
deriving DecidableEq

/-- The fatal errors `uploadRelease` can raise (`log.Fatalf` / `panic`). -/
inductive Err where
  | unknownVariant (variant : String)
  | countMismatch (found expected : Nat)
  | artifactCountMismatch (expected found : Nat) (variant : String)
  | panicUnreachable
deriving DecidableEq

def isUploadEvent : Event → Bool
  | .upload _ _ => true
  | _ => false

def isFeedEvent : Event → Bool
  | .feedUpload _ => true
  | _ => false

/-! ## The local file store

`downloadFile` and `copyFile` write local files that the checksum helpers
read back; a run's working directory is modelled as an association list from
filename to contents, newest write first. -/

abbrev Store := List (String × String)

def writeFile (st : Store) (f c : String) : Store := (f, c) :: st

def readFile : Store → String → String
  | [], _ => ""
  | (g, c) :: rest, f => if g = f then c else readFile rest f

/-! ## uploadRelease (release.go lines 792-918) -/

/-- The download-record structures of the JSON feed (`download` package,
modelled from the spec's feed format: per-platform record with optional
archive and package entries carrying URL and MD5/SHA1/SHA256). -/
structure ToolsArchive where
  url : String
  md5 : String
  sha1 : String
  sha256 : String
deriving DecidableEq

structure ToolsPackage where
  url : String
  md5 : String
  sha1 : String
  sha256 : String
deriving DecidableEq

structure ToolsDownload where
  name : String
  arch : String
  archive : Option ToolsArchive
  package : Option ToolsPackage
deriving DecidableEq

/-- The filtering loop of `uploadRelease` (lines 800-812): keep non-patch
tasks with display name "sign"; a sign task whose variant is unknown to the
platform matrix is fatal (`log.Fatalf`). -/
def collectSignTasks (lookup : String → Option Platform) : List Task → Except Err (List Task)
  | [] => .ok []
  | t :: rest =>
    if t.isPatch || t.displayName != "sign" then collectSignTasks lookup rest
    else
      match lookup t.variant with
      | none => .error (.unknownVariant t.variant)
      | some _ => (collectSignTasks lookup rest).map (t :: ·)

def unstableName (pf : Platform) (ext : String) : String :=
  "mongodb-database-tools-" ++ pf.name ++ "-" ++ pf.arch ++ "-unstable" ++ ext

def stableName (pf : Platform) (v : Version) (ext : String) : String :=
  "mongodb-database-tools-" ++ pf.name ++ "-" ++ pf.arch ++ "-" ++ versionString v ++ ext

def latestStableName (pf : Platform) (ext : String) : String :=
  "mongodb-database-tools-" ++ pf.name ++ "-" ++ pf.arch ++ "-latest-stable" ++ ext

def stableURL (pf : Platform) (v : Version) (ext : String) : String :=
  "https://fastdl.mongodb.org/tools/db/" ++ stableName pf v ext

/-- The body of the inner artifact loop (lines 847-894): download the
artifact to the unstable name; when the version is stable, copy it to the
stable and latest-stable names, compute the three checksums of the
latest-stable copy and record them under archive (`.tgz`/`.zip` extension)
or package (anything else); upload the unstable name, then, when stable, the
stable and latest-stable names.  The upload result is NOT consulted by the
Go code (the `awsClient.UploadFile` return value is discarded), so a failed
upload produces an `ok := false` event and execution continues. -/
def processArtifact (env : Env) (v : Version) (pf : Platform) (a : Artifact)
    (store : Store) (dl : ToolsDownload) : List Event × Store × ToolsDownload :=
  let ext := pathExt a.url
  let unstableFile := unstableName pf ext
  let stableFile := stableName pf v ext
  let latestStableFile := latestStableName pf ext
  let store1 := writeFile store unstableFile (env.content a.url)
  let sd :=
    if isStable v then
      let store2 := writeFile store1 stableFile (readFile store1 unstableFile)
      let store3 := writeFile store2 latestStableFile (readFile store2 unstableFile)
      let artifactURL := stableURL pf v ext
      let md5sum := env.md5 (readFile store3 latestStableFile)
      let sha1sum := env.sha1 (readFile store3 latestStableFile)
      let sha256sum := env.sha256 (readFile store3 latestStableFile)
      if ext = ".tgz" ∨ ext = ".zip" then
        (store3, { dl with archive := some ⟨artifactURL, md5sum, sha1sum, sha256sum⟩ })
      else
        (store3, { dl with package := some ⟨artifactURL, md5sum, sha1sum, sha256sum⟩ })
    else (store1, dl)
  ([Event.download a.url unstableFile,
    Event.upload unstableFile (env.uploadOk unstableFile)] ++
    (if isStable v then
      [Event.upload stableFile (env.uploadOk stableFile),
       Event.upload latestStableFile (env.uploadOk latestStableFile)]
     else []),
   sd.1, sd.2)

def processArtifacts (env : Env) (v : Version) (pf : Platform) :
    List Artifact → Store → ToolsDownload → List Event × Store × ToolsDownload
  | [], st, dl => ([], st, dl)
  | a :: rest, st, dl =>
    let r := processArtifact env v pf a st dl
    let r2 := processArtifacts env v pf rest r.2.1 r.2.2
    (r.1 ++ r2.1, r2.2.1, r2.2.2)

/-- The body of the outer task loop (lines 827-897): look the variant up
again (the `!ok` branch is Go's `panic("unreachable")`), check the artifact
count against the platform's expected extensions, then process each
artifact. -/
def processTask (env : Env) (v : Version) (store : Store) (t : Task) :
    List Event × Store × Except Err ToolsDownload :=
  match env.getByVariant t.variant with
  | none => ([], store, .error .panicUnreachable)
  | some pf =>
    let artifacts := env.artifactsFor t
    if artifacts.length ≠ pf.artifactExtensions.length then
      ([], store, .error (.artifactCountMismatch pf.artifactExtensions.length artifacts.length t.variant))
    else
      let r := processArtifacts env v pf artifacts store ⟨pf.name, pf.arch, none, none⟩
      (r.1, r.2.1, .ok r.2.2)

def processTasks (env : Env) (v : Version) :
    List Task → Store → List Event × Store × Except Err (List ToolsDownload)
  | [], st => ([], st, .ok [])
  | t :: rest, st =>
    let r := processTask env v st t
    match r.2.2 with
    | .error e => (r.1, r.2.1, .error e)
    | .ok dl =>
      let r2 := processTasks env v rest r.2.1
      (r.1 ++ r2.1, r2.2.1, (r2.2.2).map (dl :: ·))

/-- `uploadRelease` (lines 792-918).  `evgIsPatch` is the environment's
patch-build flag (`env.EvgIsPatch()`): a patch build prints a notice but the
function does NOT return — the whole pipeline still runs.  After the sign
tasks are collected their count must equal the platform-matrix size; then
every task is processed, and finally, only for a stable version, the JSON
feed `release.json` is written and uploaded last. -/
def uploadRelease (evgIsPatch : Bool) (env : Env) (v : Version) : List Event × Option Err :=
  let ev0 : List Event := if evgIsPatch then [Event.patchNotice] else []
  match collectSignTasks env.getByVariant env.tasks with
  | .error e => (ev0, some e)
  | .ok signTasks =>
    if signTasks.length ≠ env.platformCount then
      (ev0, some (.countMismatch signTasks.length env.platformCount))
    else
      let r := processTasks env v signTasks []
      match r.2.2 with
      | .error e => (ev0 ++ r.1, some e)
      | .ok _ =>
        if isStable v then
          (ev0 ++ r.1 ++ [Event.feedUpload "release.json"], none)
        else
          (ev0 ++ r.1, none)

/-! ## buildMSI (release.go lines 473-635)

Only run on Windows (otherwise a silent no-op).  After staging the DLLs,
static files, wix inputs and binaries into the build directory, the version
label (`%d` of the major version) is compared with the label recorded when
the upgrade code was last changed; a mismatch is fatal before `candle.exe`
or `light.exe` is invoked. -/

inductive OS where
  | linux
  | mac
  | windows
deriving DecidableEq

/-- The binaries list (release.go lines 33-42). -/
def binaries : List String :=
  ["bsondump", "mongodump", "mongoexport", "mongofiles",
   "mongoimport", "mongorestore", "mongostat", "mongotop"]

def msiStaticFiles : List String := ["README.md", "THIRD-PARTY-NOTICES"]

def saslDLLs : List String := ["libsasl.dll"]

def msiFiles : List String :=
  ["Banner_Tools.bmp", "BinaryFragment.wxs", "Dialog.bmp", "Dialog_Tools.bmp",
   "FeatureFragment.wxs", "Installer_Icon_16x16.ico", "Installer_Icon_32x32.ico",
   "LICENSE.rtf", "LicensingFragment.wxs", "Product.wxs", "UIFragment.wxs"]

/-- The fixed MSI upgrade code (line 481). -/
def msiUpgradeCode : String := "f8a84cb5-a2a7-4392-bfb5-8f829b659960"

/-- The version label recorded when `msiUpgradeCode` was last updated
(line 580). -/
def lastVersionLabel : String := "100"

inductive MsiEvent where
  | copySaslDll (name : String)
  | linkStaticFile (name : String)
  | linkMsiFile (name : String)
  | linkBinary (name : String)
  | runCandle
  | runLight
  | linkOutput
deriving DecidableEq

inductive MsiErr where
  | upgradeCodeOutdated
  | candleFailed
  | lightFailed
deriving DecidableEq

structure MsiEnv where
  os : OS
  candleOk : Bool
  lightOk : Bool
deriving DecidableEq

def buildMSI (env : MsiEnv) (v : Version) : List MsiEvent × Option MsiErr :=
  if env.os ≠ OS.windows then ([], none)
  else
    let setupEvents :=
      saslDLLs.map MsiEvent.copySaslDll ++
      msiStaticFiles.map MsiEvent.linkStaticFile ++
      msiFiles.map MsiEvent.linkMsiFile ++
      binaries.map MsiEvent.linkBinary
    let versionLabel := toString v.major
    if versionLabel ≠ lastVersionLabel then
      (setupEvents, some MsiErr.upgradeCodeOutdated)
    else if env.candleOk = false then
      (setupEvents ++ [MsiEvent.runCandle], some MsiErr.candleFailed)
    else if env.lightOk = false then
      (setupEvents ++ [MsiEvent.runCandle, MsiEvent.runLight], some MsiErr.lightFailed)
    else
      (setupEvents ++ [MsiEvent.runCandle, MsiEvent.runLight, MsiEvent.linkOutput], none)

/-! ## Concrete instances used for evaluating the pipeline -/

/-- A stable version (no pre-release tag). -/
def stableV : Version := ⟨100, 1, 2, "", "abc"⟩

/-- One sign task for the single matrix platform, one `.tgz` artifact, and an
object-storage collaborator on which every upload fails. -/
def failingUploadEnv : Env :=
  { tasks := [⟨"t1", "v1", "sign", false⟩]
    getByVariant := fun s =>
      if s = "v1" then some ⟨"linux-x64", "x86_64", [".tgz"]⟩ else none
    platformCount := 1
    artifactsFor := fun _ => [⟨"https://h/a.tgz"⟩]
    content := fun _ => "BYTES"
    md5 := fun c => "md5:" ++ c
    sha1 := fun c => "sha1:" ++ c
    sha256 := fun c => "sha256:" ++ c
    uploadOk := fun _ => false }

/-- No tasks at all, but a matrix of size 1. -/
def emptyTasksEnv : Env :=
  { tasks := []
    getByVariant := fun _ => none
    platformCount := 1
    artifactsFor := fun _ => []
    content := fun _ => ""
    md5 := fun _ => ""
    sha1 := fun _ => ""
    sha256 := fun _ => ""
    uploadOk := fun _ => true }

/-- One non-patch sign task whose variant resolves to no platform. -/
def unknownVariantEnv : Env :=
  { emptyTasksEnv with tasks := [⟨"t1", "weird-variant", "sign", false⟩] }

def w7Pf : Platform := ⟨"linux-x64", "x86_64", [".rpm"]⟩

def w7A : Artifact := ⟨"https://h/x.rpm"⟩

def w7Dl : ToolsDownload := ⟨"linux-x64", "x86_64", none, none⟩

def w8Env : MsiEnv := ⟨OS.windows, true, true⟩

def w8V : Version := ⟨101, 0, 0, "", "def0"⟩

/-- A control-file template containing all three placeholder tokens. -/
def wContent : List Char :=
  "Version: @TOOLS_VERSION@ Release: @TOOLS_RELEASE@ Arch: @ARCHITECTURE@".toList

/-! ### Lemmas: substitution leaves no occurrence of the replaced token

The combinatorial facts used for the template-substitution claim.  The key
hypothesis everywhere is that the replacement value is nonempty and shares no
character with the token being tracked, which rules out occurrences assembled
across a replacement site. -/

theorem isPrefixOf_cons_iff {p c : Char} {ps s : List Char} :
    (p :: ps).isPrefixOf (c :: s) = true ↔ p = c ∧ ps.isPrefixOf s = true := by
  simp [List.isPrefixOf]

theorem not_isPrefixOf_nil {p : Char} {ps : List Char} :
    (p :: ps).isPrefixOf ([] : List Char) = false := rfl

theorem mem_of_isPrefixOf_append {q t s : List Char} (hq : q ≠ []) (ht : t ≠ [])
    (h : q.isPrefixOf (t ++ s) = true) : ∃ c, c ∈ q ∧ c ∈ t := by
  match q, t with
  | qh :: qs, th :: ts =>
    rw [List.cons_append, isPrefixOf_cons_iff] at h
    exact ⟨qh, List.mem_cons_self .., h.1 ▸ List.mem_cons_self ..⟩

theorem hasSub_append_cases {pat : List Char} (hp : pat ≠ []) :
    ∀ a b : List Char, hasSub pat (a ++ b) = true →
      (∃ c, c ∈ a ∧ c ∈ pat) ∨ hasSub pat b = true := by
  intro a
  induction a with
  | nil => intro b h; exact Or.inr (by simpa using h)
  | cons x a' ih =>
    intro b h
    rw [List.cons_append, hasSub, Bool.or_eq_true] at h
    rcases h with h | h
    · match pat, hp, h with
      | p :: ps, _, h =>
        rw [isPrefixOf_cons_iff] at h
        exact Or.inl ⟨p, by rw [h.1]; exact List.mem_cons_self .., List.mem_cons_self ..⟩
    · rcases ih b h with ⟨c, hc1, hc2⟩ | h
      · exact Or.inl ⟨c, List.mem_cons_of_mem _ hc1, hc2⟩
      · exact Or.inr h

theorem hasSub_of_hasSub_drop {pat : List Char} :
    ∀ (k : Nat) (s : List Char), hasSub pat (s.drop k) = true → hasSub pat s = true := by
  intro k
  induction k with
  | zero => intro s h; simpa using h
  | succ k ih =>
    intro s h
    match s with
    | [] => exact h
    | c :: rest =>
      rw [List.drop_succ_cons] at h
      rw [hasSub, Bool.or_eq_true]
      exact Or.inr (ih rest h)

/-- A nonempty prefix of a replacement result is either a prefix of the
original string or begins inside an inserted copy of `new`. -/
theorem isPrefixOf_goReplace {old new : List Char} (hn : new ≠ []) :
    ∀ (fuel : Nat) (s : List Char) (n : Int) (q : List Char), q ≠ [] →
      q.isPrefixOf (goReplace old new fuel s n) = true →
      q.isPrefixOf s = true ∨ ∃ c, c ∈ q ∧ c ∈ new := by
  intro fuel
  induction fuel with
  | zero =>
    intro s n q hq h
    match s with
    | [] =>
      rw [goReplace] at h
      split at h
      · match q, hq, h with
        | qh :: qs, _, h => exact absurd h (by simp [not_isPrefixOf_nil])
      · split at h
        · exact Or.inr (mem_of_isPrefixOf_append hq hn (by rw [List.append_nil]; exact h))
        · match q, hq, h with
          | qh :: qs, _, h => exact absurd h (by simp [not_isPrefixOf_nil])
    | c :: rest => exact Or.inl h
  | succ fuel ih =>
    intro s n q hq h
    match s with
    | [] =>
      rw [goReplace] at h
      split at h
      · match q, hq, h with
        | qh :: qs, _, h => exact absurd h (by simp [not_isPrefixOf_nil])
      · split at h
        · exact Or.inr (mem_of_isPrefixOf_append hq hn (by rw [List.append_nil]; exact h))
        · match q, hq, h with
          | qh :: qs, _, h => exact absurd h (by simp [not_isPrefixOf_nil])
    | c :: rest =>
      rw [goReplace] at h
      split at h
      · exact Or.inl h
      · split at h
        · exact Or.inr (mem_of_isPrefixOf_append hq hn h)
        · split at h
          · exact Or.inr (mem_of_isPrefixOf_append hq hn h)
          · match q, hq, h with
            | qh :: qs, _, h =>
              rw [isPrefixOf_cons_iff] at h
              match qs, h with
              | [], h =>
                refine Or.inl ?_
                rw [isPrefixOf_cons_iff]
                exact ⟨h.1, List.isPrefixOf_nil_left⟩
              | q1 :: qs', h =>
                rcases ih rest n (q1 :: qs') (by simp) h.2 with hpre | ⟨c', hc1, hc2⟩
                · refine Or.inl ?_
                  rw [isPrefixOf_cons_iff]
                  exact ⟨h.1, hpre⟩
                · exact Or.inr ⟨c', List.mem_cons_of_mem _ hc1, hc2⟩

theorem hasSub_nil {pat : List Char} (hp : pat ≠ []) : hasSub pat [] = false := by
  match pat, hp with
  | p :: ps, _ => simp [hasSub]

theorem goReplace_nil {old new : List Char} (fuel : Nat) {n : Int}
    (hne : old ≠ new) (hneg : n ≠ 0) (ho : old ≠ []) :
    goReplace old new fuel [] n = [] := by
  match fuel with
  | 0 => simp [goReplace, hne, hneg, ho]
  | fuel + 1 => simp [goReplace, hne, hneg, ho]

/-- Helper: pushing a character in front of a replacement result cannot create
an occurrence of `pat` when `pat` did not sit at that position of the original
string and `pat` shares no character with `new`. -/
theorem hasSub_cons_goReplace {pat new : List Char} (hp : pat ≠ []) (hn : new ≠ [])
    (hd : ∀ c ∈ new, c ∉ pat) {old rest : List Char} {fuel : Nat} {n : Int} {c : Char}
    (hs1 : pat.isPrefixOf (c :: rest) = false)
    (hX : hasSub pat (goReplace old new fuel rest n) = false) :
    hasSub pat (c :: goReplace old new fuel rest n) = false := by
  rw [hasSub, Bool.or_eq_false_iff]
  refine ⟨?_, hX⟩
  cases hpre : pat.isPrefixOf (c :: goReplace old new fuel rest n) with
  | false => rfl
  | true =>
    exfalso
    match pat, hp, hs1, hpre with
    | p :: ps, _, hs1, hpre =>
      rw [isPrefixOf_cons_iff] at hpre
      match ps, hpre, hs1 with
      | [], hpre, hs1 =>
        have htrue : [p].isPrefixOf (c :: rest) = true := by
          rw [isPrefixOf_cons_iff]; exact ⟨hpre.1, List.isPrefixOf_nil_left⟩
        rw [htrue] at hs1
        simp at hs1
      | q1 :: qs, hpre, hs1 =>
        rcases isPrefixOf_goReplace hn fuel rest n (q1 :: qs) (by simp) hpre.2 with
          hq | ⟨ch, hc1, hc2⟩
        · have htrue : (p :: q1 :: qs).isPrefixOf (c :: rest) = true := by
            rw [isPrefixOf_cons_iff]; exact ⟨hpre.1, hq⟩
          rw [htrue] at hs1
          simp at hs1
        · exact hd ch hc2 (List.mem_cons_of_mem _ hc1)

/-- Unlimited replacement of a nonempty `pat` by a value sharing no character
with `pat` leaves no occurrence of `pat`. -/
theorem hasSub_goReplace_self {pat new : List Char} (hp : pat ≠ []) (hn : new ≠ [])
    (hd : ∀ c ∈ new, c ∉ pat) :
    ∀ (fuel : Nat) (s : List Char) (n : Int), s.length ≤ fuel → n < 0 →
      hasSub pat (goReplace pat new fuel s n) = false := by
  have hne : pat ≠ new := by
    intro he
    match pat, hp with
    | p :: ps, _ => exact hd p (he ▸ List.mem_cons_self ..) (List.mem_cons_self ..)
  intro fuel
  induction fuel with
  | zero =>
    intro s n hlen hneg
    match s, hlen with
    | [], _ =>
      rw [goReplace_nil 0 hne (by omega) hp]
      exact hasSub_nil hp
  | succ fuel ih =>
    intro s n hlen hneg
    match s with
    | [] =>
      rw [goReplace_nil (fuel + 1) hne (by omega) hp]
      exact hasSub_nil hp
    | c :: rest =>
      have hlen' : rest.length ≤ fuel := by
        simp only [List.length_cons] at hlen; omega
      rw [goReplace, if_neg (by simp [hne]; omega), if_neg hp]
      cases hm : pat.isPrefixOf (c :: rest) with
      | true =>
        rw [if_pos rfl]
        cases hres : hasSub pat
            (new ++ goReplace pat new fuel ((c :: rest).drop pat.length) (n - 1)) with
        | false => rfl
        | true =>
          exfalso
          rcases hasSub_append_cases hp new _ hres with ⟨ch, h1, h2⟩ | hX
          · exact hd ch h1 h2
          · have hdl : ((c :: rest).drop pat.length).length ≤ fuel := by
              have hpl : 0 < pat.length := List.length_pos.mpr hp
              simp only [List.length_drop, List.length_cons]
              omega
            rw [ih ((c :: rest).drop pat.length) (n - 1) hdl (by omega)] at hX
            exact Bool.false_ne_true hX
      | false =>
        rw [if_neg Bool.false_ne_true]
        exact hasSub_cons_goReplace hp hn hd hm (ih rest n hlen' hneg)

/-- Replacement (of any `old` by a value sharing no character with `pat`)
cannot create an occurrence of `pat` that was not already present. -/
theorem hasSub_goReplace_other {pat new : List Char} (hp : pat ≠ []) (hn : new ≠ [])
    (hd : ∀ c ∈ new, c ∉ pat) (old : List Char) :
    ∀ (fuel : Nat) (s : List Char) (n : Int), hasSub pat s = false →
      hasSub pat (goReplace old new fuel s n) = false := by
  have hnew : hasSub pat new = false := by
    cases hres : hasSub pat new with
    | false => rfl
    | true =>
      exfalso
      rw [← List.append_nil new] at hres
      rcases hasSub_append_cases hp new [] hres with ⟨ch, h1, h2⟩ | hX
      · exact hd ch h1 h2
      · rw [hasSub_nil hp] at hX; exact Bool.false_ne_true hX
  intro fuel
  induction fuel with
  | zero =>
    intro s n hs
    match s with
    | [] =>
      rw [goReplace]
      split
      · exact hasSub_nil hp
      · split
        · exact hnew
        · exact hasSub_nil hp
    | c :: rest => exact hs
  | succ fuel ih =>
    intro s n hs
    match s with
    | [] =>
      rw [goReplace]
      split
      · exact hasSub_nil hp
      · split
        · exact hnew
        · exact hasSub_nil hp
    | c :: rest =>
      rw [hasSub, Bool.or_eq_false_iff] at hs
      rw [goReplace]
      split
      · rw [hasSub, Bool.or_eq_false_iff]
        exact ⟨hs.1, hs.2⟩
      · split
        · cases hres : hasSub pat
              (new ++ c :: goReplace old new fuel rest (n - 1)) with
          | false => rfl
          | true =>
            exfalso
            rcases hasSub_append_cases hp new _ hres with ⟨ch, h1, h2⟩ | hX
            · exact hd ch h1 h2
            · rw [hasSub_cons_goReplace hp hn hd hs.1 (ih rest (n - 1) hs.2)] at hX
              exact Bool.false_ne_true hX
        · split
          · cases hres : hasSub pat
                (new ++ goReplace old new fuel ((c :: rest).drop old.length) (n - 1)) with
            | false => rfl
            | true =>
              exfalso
              rcases hasSub_append_cases hp new _ hres with ⟨ch, h1, h2⟩ | hX
              · exact hd ch h1 h2
              · have hdrop : hasSub pat ((c :: rest).drop old.length) = false := by
                  cases hdres : hasSub pat ((c :: rest).drop old.length) with
                  | false => rfl
                  | true =>
                    exfalso
                    have h2 := hasSub_of_hasSub_drop old.length (c :: rest) hdres
                    rw [hasSub, hs.1, hs.2] at h2
                    exact Bool.false_ne_true h2
                rw [ih ((c :: rest).drop old.length) (n - 1) hdrop] at hX
                exact Bool.false_ne_true hX
          · exact hasSub_cons_goReplace hp hn hd hs.1 (ih rest n hs.2)

/-! ### Lemmas: the sign-task filtering loop -/

theorem collectSignTasks_ok_mem (lookup : String → Option Platform) :
    ∀ (l st : List Task), collectSignTasks lookup l = .ok st →
      ∀ t ∈ st, ∃ pf, lookup t.variant = some pf := by
  intro l
  induction l with
  | nil =>
    intro st h t ht
    simp only [collectSignTasks, Except.ok.injEq] at h
    subst h
    simp at ht
  | cons t0 rest ih =>
    intro st h t ht
    rw [collectSignTasks] at h
    split at h
    · exact ih st h t ht
    · cases hv : lookup t0.variant with
      | none => rw [hv] at h; simp at h
      | some pf =>
        rw [hv] at h
        cases hr : collectSignTasks lookup rest with
        | error e => rw [hr] at h; simp [Except.map] at h
        | ok st' =>
          rw [hr] at h
          simp only [Except.map, Except.ok.injEq] at h
          subst h
          rcases List.mem_cons.mp ht with rfl | ht'
          · exact ⟨pf, hv⟩
          · exact ih st' hr t ht'

theorem collectSignTasks_error_shape (lookup : String → Option Platform) :
    ∀ (l : List Task) (e : Err), collectSignTasks lookup l = .error e →
      ∃ s, e = .unknownVariant s := by
  intro l
  induction l with
  | nil => intro e h; simp [collectSignTasks] at h
  | cons t0 rest ih =>
    intro e h
    rw [collectSignTasks] at h
    split at h
    · exact ih e h
    · cases hv : lookup t0.variant with
      | none =>
        rw [hv] at h
        simp only [Except.error.injEq] at h
        exact ⟨t0.variant, h.symm⟩
      | some pf =>
        rw [hv] at h
        cases hr : collectSignTasks lookup rest with
        | error e' =>
          rw [hr] at h
          simp only [Except.map, Except.error.injEq] at h
          subst h
          exact ih e' hr
        | ok st' => rw [hr] at h; simp [Except.map] at h

theorem collectSignTasks_unknown_mem (lookup : String → Option Platform) :
    ∀ (l : List Task) (t : Task), t ∈ l → t.isPatch = false → t.displayName = "sign" →
      lookup t.variant = none →
      ∃ s, collectSignTasks lookup l = .error (.unknownVariant s) := by
  intro l
  induction l with
  | nil => intro t ht; simp at ht
  | cons t0 rest ih =>
    intro t ht hp hd hv
    rcases List.mem_cons.mp ht with rfl | ht'
    · refine ⟨t.variant, ?_⟩
      rw [collectSignTasks, if_neg (by simp [hp, hd]), hv]
    · rw [collectSignTasks]
      split
      · exact ih t ht' hp hd hv
      · cases hv0 : lookup t0.variant with
        | none => exact ⟨t0.variant, rfl⟩
        | some pf =>
          rcases ih t ht' hp hd hv with ⟨s, hs⟩
          refine ⟨s, ?_⟩
          rw [hs]
          rfl

/-! ### Lemmas: no feed event is produced inside the task loop -/

theorem processArtifact_no_feed (env : Env) (v : Version) (pf : Platform) (a : Artifact)
    (st : Store) (dl : ToolsDownload) :
    ∀ e ∈ (processArtifact env v pf a st dl).1, isFeedEvent e = false := by
  intro e he
  cases hst : isStable v with
  | true =>
    simp [processArtifact, hst] at he
    rcases he with rfl | rfl | rfl | rfl <;> rfl
  | false =>
    simp [processArtifact, hst] at he
    rcases he with rfl | rfl <;> rfl

theorem processArtifacts_no_feed (env : Env) (v : Version) (pf : Platform) :
    ∀ (l : List Artifact) (st : Store) (dl : ToolsDownload),
      ∀ e ∈ (processArtifacts env v pf l st dl).1, isFeedEvent e = false := by
  intro l
  induction l with
  | nil => intro st dl e he; simp [processArtifacts] at he
  | cons a rest ih =>
    intro st dl e he
    simp only [processArtifacts, List.mem_append] at he
    rcases he with h | h
    · exact processArtifact_no_feed env v pf a st dl e h
    · exact ih _ _ e h

theorem processTask_no_feed (env : Env) (v : Version) (st : Store) (t : Task) :
    ∀ e ∈ (processTask env v st t).1, isFeedEvent e = false := by
  intro e he
  unfold processTask at he
  cases hv : env.getByVariant t.variant with
  | none => rw [hv] at he; simp at he
  | some pf =>
    rw [hv] at he
    simp only [] at he
    split at he
    · simp at he
    · exact processArtifacts_no_feed env v pf _ _ _ e he

theorem processTasks_no_feed (env : Env) (v : Version) :
    ∀ (l : List Task) (st : Store),
      ∀ e ∈ (processTasks env v l st).1, isFeedEvent e = false := by
  intro l
  induction l with
  | nil => intro st e he; simp [processTasks] at he
  | cons t rest ih =>
    intro st e he
    simp only [processTasks] at he
    cases hr : (processTask env v st t).2.2 with
    | error err =>
      rw [hr] at he
      exact processTask_no_feed env v st t e he
    | ok dl =>
      rw [hr] at he
      simp only [List.mem_append] at he
      rcases he with h | h
      · exact processTask_no_feed env v st t e h
      · exact ih _ e h

/-! ### Lemmas: the second variant lookup never fails -/

theorem processTask_error_not_panic (env : Env) (v : Version) (st : Store) (t : Task)
    (hpf : ∃ pf, env.getByVariant t.variant = some pf) :
    (processTask env v st t).2.2 ≠ .error .panicUnreachable := by
  rcases hpf with ⟨pf, hv⟩
  unfold processTask
  rw [hv]
  simp only []
  split
  · simp
  · simp

theorem processTasks_error_not_panic (env : Env) (v : Version) :
    ∀ (l : List Task) (st : Store),
      (∀ t ∈ l, ∃ pf, env.getByVariant t.variant = some pf) →
      (processTasks env v l st).2.2 ≠ .error .panicUnreachable := by
  intro l
  induction l with
  | nil => intro st _; simp [processTasks]
  | cons t rest ih =>
    intro st hall
    simp only [processTasks]
    cases hr : (processTask env v st t).2.2 with
    | error err =>
      simp only []
      intro hcon
      injection hcon with h
      exact processTask_error_not_panic env v st t
        (hall t (List.mem_cons_self ..)) (by rw [hr, h])
    | ok dl =>
      simp only []
      cases hr2 : (processTasks env v rest (processTask env v st t).2.1).2.2 with
      | error err2 =>
        simp only [Except.map]
        intro hcon
        injection hcon with h
        exact ih (processTask env v st t).2.1
          (fun t' ht' => hall t' (List.mem_cons_of_mem _ ht')) (by rw [hr2, h])
      | ok dls =>
        simp only [Except.map]
        intro hcon
        exact Except.noConfusion hcon

/-! ## The claims -/

/-- C1: if the number of filtered sign tasks differs from the platform-matrix
size (more or fewer), `uploadRelease` fails fatally with the count-mismatch
error and performs zero uploads — no object-storage upload event occurs. -/
theorem uploadRelease_count_mismatch_fatal (b : Bool) (env : Env) (v : Version)
    (st : List Task) (hok : collectSignTasks env.getByVariant env.tasks = .ok st)
    (hne : st.length ≠ env.platformCount) :
    (uploadRelease b env v).2 = some (.countMismatch st.length env.platformCount) ∧
    (uploadRelease b env v).1.filter isUploadEvent = [] := by
  unfold uploadRelease
  rw [hok]
  simp only []
  rw [if_pos hne]
  exact ⟨rfl, by cases b <;> rfl⟩

/-- C1 witness: no sign tasks against a matrix of size 1. -/
theorem uploadRelease_count_mismatch_fatal_witness :
    (uploadRelease false emptyTasksEnv stableV).2 = some (.countMismatch 0 1) ∧
    (uploadRelease false emptyTasksEnv stableV).1.filter isUploadEvent = [] :=
  uploadRelease_count_mismatch_fatal false emptyTasksEnv stableV [] rfl (by decide)

/-- C2: for every platform and every artifact, the artifact is uploaded under
exactly 3 filenames when the version is stable — the unstable, stable and
latest-stable names — and exactly 1 filename (the unstable name) otherwise. -/
theorem processArtifact_upload_filenames (env : Env) (v : Version) (pf : Platform)
    (a : Artifact) (store : Store) (dl : ToolsDownload) :
    ((processArtifact env v pf a store dl).1).filter isUploadEvent =
      (if isStable v then
        [Event.upload (unstableName pf (pathExt a.url))
           (env.uploadOk (unstableName pf (pathExt a.url))),
         Event.upload (stableName pf v (pathExt a.url))
           (env.uploadOk (stableName pf v (pathExt a.url))),
         Event.upload (latestStableName pf (pathExt a.url))
           (env.uploadOk (latestStableName pf (pathExt a.url)))]
       else
        [Event.upload (unstableName pf (pathExt a.url))
           (env.uploadOk (unstableName pf (pathExt a.url)))]) := by
  cases hst : isStable v <;> simp [processArtifact, hst, isUploadEvent]

/-- C3: evaluation of `uploadRelease` at a stable version with one sign task
and one `.tgz` artifact, in an environment where every object-storage upload
fails.  The failed upload of the unstable file is followed by two further
uploads and the feed upload, and the run reports no error: `uploadRelease`
discards the result of every upload call. -/
theorem uploadRelease_ignores_failed_upload :
    uploadRelease false failingUploadEnv stableV =
      ([Event.download "https://h/a.tgz"
          "mongodb-database-tools-linux-x64-x86_64-unstable.tgz",
        Event.upload "mongodb-database-tools-linux-x64-x86_64-unstable.tgz" false,
        Event.upload "mongodb-database-tools-linux-x64-x86_64-100.1.2.tgz" false,
        Event.upload "mongodb-database-tools-linux-x64-x86_64-latest-stable.tgz" false,
        Event.feedUpload "release.json"], none) := by
  decide

/-- C4 counterexample: a control template carrying `@TOOLS_RELEASE@` passes
through `buildDeb`'s substitution unchanged — the placeholder token is still
present in the output, for concrete version `100.3.1` and architecture
`amd64`. -/
theorem debControl_leaves_release_token :
    hasSub tokRelease
      (debControlContent "Release: @TOOLS_RELEASE@".toList
        "100.3.1".toList "amd64".toList) = true := by
  decide

/-- C4 (amended): for nonempty substitution values sharing no character with
the tokens, `buildRPM`'s spec-file substitution eliminates every occurrence
of all three placeholder tokens, while `buildDeb`'s control-file substitution
eliminates every occurrence of `@TOOLS_VERSION@` only — `@TOOLS_RELEASE@` is
not substituted at all and `@ARCHITECTURE@` only in its first occurrence, so
those tokens can remain (see the counterexample). -/
theorem package_template_substitution (content v r a : List Char)
    (hv0 : v ≠ []) (hr0 : r ≠ []) (ha0 : a ≠ [])
    (hv1 : ∀ c ∈ v, c ∉ tokVersion)
    (hr1 : ∀ c ∈ r, c ∉ tokVersion) (hr2 : ∀ c ∈ r, c ∉ tokRelease)
    (ha1 : ∀ c ∈ a, c ∉ tokVersion) (ha2 : ∀ c ∈ a, c ∉ tokRelease)
    (ha3 : ∀ c ∈ a, c ∉ tokArchitecture) :
    hasSub tokVersion (rpmSpecContent content v r a) = false ∧
    hasSub tokRelease (rpmSpecContent content v r a) = false ∧
    hasSub tokArchitecture (rpmSpecContent content v r a) = false ∧
    hasSub tokVersion (debControlContent content v a) = false := by
  have htV : tokVersion ≠ [] := by decide
  have htR : tokRelease ≠ [] := by decide
  have htA : tokArchitecture ≠ [] := by decide
  refine ⟨?_, ?_, ?_, ?_⟩
  · unfold rpmSpecContent
    exact hasSub_goReplace_other htV ha0 ha1 tokArchitecture _ _ _
      (hasSub_goReplace_other htV hr0 hr1 tokRelease _ _ _
        (hasSub_goReplace_self htV hv0 hv1 _ _ _ (le_refl _) (by omega)))
  · unfold rpmSpecContent
    exact hasSub_goReplace_other htR ha0 ha2 tokArchitecture _ _ _
      (hasSub_goReplace_self htR hr0 hr2 _ _ _ (le_refl _) (by omega))
  · unfold rpmSpecContent
    exact hasSub_goReplace_self htA ha0 ha3 _ _ _ (le_refl _) (by omega)
  · unfold debControlContent
    exact hasSub_goReplace_other htV ha0 ha1 tokArchitecture _ _ _
      (hasSub_goReplace_self htV hv0 hv1 _ _ _ (le_refl _) (by omega))

/-- C4 witness: a template holding all three tokens, version `100.3.1`,
release `1`, architecture `amd64`. -/
theorem package_template_substitution_witness :
    (∀ c ∈ "amd64".toList, c ∉ tokArchitecture) ∧
    (hasSub tokVersion
        (rpmSpecContent wContent "100.3.1".toList "1".toList "amd64".toList) = false ∧
      hasSub tokRelease
        (rpmSpecContent wContent "100.3.1".toList "1".toList "amd64".toList) = false ∧
      hasSub tokArchitecture
        (rpmSpecContent wContent "100.3.1".toList "1".toList "amd64".toList) = false ∧
      hasSub tokVersion
        (debControlContent wContent "100.3.1".toList "amd64".toList) = false) :=
  ⟨by decide,
    package_template_substitution wContent "100.3.1".toList "1".toList "amd64".toList
      (by decide) (by decide) (by decide) (by decide) (by decide) (by decide)
      (by decide) (by decide) (by decide)⟩

/-- C5: a feed-upload event happens only when the version is stable and the
run reports no fatal error, and in that case it is the single final event of
the trace: every other event of the run — in particular every per-platform
artifact upload — precedes it. -/
theorem uploadRelease_feed_last (b : Bool) (env : Env) (v : Version) :
    ∃ E, (uploadRelease b env v).1 =
        E ++ (if isStable v && (uploadRelease b env v).2.isNone
              then [Event.feedUpload "release.json"] else []) ∧
      ∀ e ∈ E, isFeedEvent e = false := by
  have hev0 : ∀ e ∈ (if b then [Event.patchNotice] else []), isFeedEvent e = false := by
    cases b <;> simp [isFeedEvent]
  unfold uploadRelease
  cases hc : collectSignTasks env.getByVariant env.tasks with
  | error e =>
    simp only []
    exact ⟨if b then [Event.patchNotice] else [], by simp, hev0⟩
  | ok st =>
    simp only []
    by_cases hlen : st.length ≠ env.platformCount
    · rw [if_pos hlen]
      exact ⟨if b then [Event.patchNotice] else [], by simp, hev0⟩
    · rw [if_neg hlen]
      have hnf : ∀ e ∈ (processTasks env v st []).1, isFeedEvent e = false :=
        processTasks_no_feed env v st []
      have hE : ∀ e ∈ (if b then [Event.patchNotice] else []) ++ (processTasks env v st []).1,
          isFeedEvent e = false := by
        intro e' he'
        rcases List.mem_append.mp he' with h | h
        · exact hev0 e' h
        · exact hnf e' h
      cases hr : (processTasks env v st []).2.2 with
      | error e =>
        simp only []
        exact ⟨(if b then [Event.patchNotice] else []) ++ (processTasks env v st []).1,
          by simp, hE⟩
      | ok dls =>
        cases hst : isStable v with
        | true =>
          simp only []
          exact ⟨(if b then [Event.patchNotice] else []) ++ (processTasks env v st []).1,
            by simp, hE⟩
        | false =>
          simp only []
          exact ⟨(if b then [Event.patchNotice] else []) ++ (processTasks env v st []).1,
            by simp, hE⟩

/-- C6: a non-patch task named "sign" whose variant does not resolve against
the platform matrix makes `uploadRelease` fail fatally with an
unknown-variant error — regardless of any counts — and no upload happens. -/
theorem uploadRelease_unknown_variant_fatal (b : Bool) (env : Env) (v : Version)
    (t : Task) (ht : t ∈ env.tasks) (hp : t.isPatch = false)
    (hd : t.displayName = "sign") (hv : env.getByVariant t.variant = none) :
    (∃ s, (uploadRelease b env v).2 = some (.unknownVariant s)) ∧
    (uploadRelease b env v).1.filter isUploadEvent = [] := by
  rcases collectSignTasks_unknown_mem env.getByVariant env.tasks t ht hp hd hv with ⟨s, hs⟩
  unfold uploadRelease
  rw [hs]
  simp only []
  exact ⟨⟨s, rfl⟩, by cases b <;> rfl⟩

/-- C6 witness: a sign task with variant "weird-variant" that the matrix
does not know. -/
theorem uploadRelease_unknown_variant_fatal_witness :
    (∃ s, (uploadRelease false unknownVariantEnv stableV).2 = some (.unknownVariant s)) ∧
    (uploadRelease false unknownVariantEnv stableV).1.filter isUploadEvent = [] :=
  uploadRelease_unknown_variant_fatal false unknownVariantEnv stableV
    ⟨"t1", "weird-variant", "sign", false⟩ (by decide) rfl rfl rfl

/-- C7: for a stable version, the checksums recorded in the per-platform
download record are the three digests of the content of the latest-stable
local copy (which equals the downloaded bytes), and the record is attached
as the Archive entry when the URL extension is `.tgz` or `.zip`, and as the
Package entry otherwise. -/
theorem processArtifact_checksums_latest_stable (env : Env) (v : Version) (pf : Platform)
    (a : Artifact) (store : Store) (dl : ToolsDownload) (hst : isStable v = true) :
    readFile (processArtifact env v pf a store dl).2.1
        (latestStableName pf (pathExt a.url)) = env.content a.url ∧
    (processArtifact env v pf a store dl).2.2 =
      (if pathExt a.url = ".tgz" ∨ pathExt a.url = ".zip" then
        { dl with archive := some ⟨stableURL pf v (pathExt a.url),
            env.md5 (env.content a.url), env.sha1 (env.content a.url),
            env.sha256 (env.content a.url)⟩ }
       else
        { dl with package := some ⟨stableURL pf v (pathExt a.url),
            env.md5 (env.content a.url), env.sha1 (env.content a.url),
            env.sha256 (env.content a.url)⟩ }) := by
  constructor
  · simp only [processArtifact, hst, if_pos]
    split <;> simp [readFile, writeFile]
  · simp only [processArtifact, hst, if_pos]
    split <;> simp [readFile, writeFile]

/-- C7 witness: a `.rpm` artifact for a stable version — the record lands in
the Package entry with the digests of the downloaded bytes. -/
theorem processArtifact_checksums_latest_stable_witness :
    isStable stableV = true ∧
    (readFile (processArtifact failingUploadEnv stableV w7Pf w7A [] w7Dl).2.1
        (latestStableName w7Pf (pathExt w7A.url)) = failingUploadEnv.content w7A.url ∧
      (processArtifact failingUploadEnv stableV w7Pf w7A [] w7Dl).2.2 =
        (if pathExt w7A.url = ".tgz" ∨ pathExt w7A.url = ".zip" then
          { w7Dl with archive := some ⟨stableURL w7Pf stableV (pathExt w7A.url),
              failingUploadEnv.md5 (failingUploadEnv.content w7A.url),
              failingUploadEnv.sha1 (failingUploadEnv.content w7A.url),
              failingUploadEnv.sha256 (failingUploadEnv.content w7A.url)⟩ }
         else
          { w7Dl with package := some ⟨stableURL w7Pf stableV (pathExt w7A.url),
              failingUploadEnv.md5 (failingUploadEnv.content w7A.url),
              failingUploadEnv.sha1 (failingUploadEnv.content w7A.url),
              failingUploadEnv.sha256 (failingUploadEnv.content w7A.url)⟩ })) :=
  ⟨rfl, processArtifact_checksums_latest_stable failingUploadEnv stableV w7Pf w7A [] w7Dl rfl⟩

/-- C8: on Windows, when the decimal label of the major version differs from
the label recorded alongside the fixed MSI upgrade code, `buildMSI` fails
with the upgrade-code configuration error and neither `candle.exe` nor
`light.exe` is invoked. -/
theorem buildMSI_upgrade_code_guard (env : MsiEnv) (v : Version)
    (hos : env.os = OS.windows) (hmaj : toString v.major ≠ lastVersionLabel) :
    (buildMSI env v).2 = some MsiErr.upgradeCodeOutdated ∧
    MsiEvent.runCandle ∉ (buildMSI env v).1 ∧
    MsiEvent.runLight ∉ (buildMSI env v).1 := by
  unfold buildMSI
  rw [if_neg (by simp [hos])]
  simp only []
  rw [if_pos hmaj]
  refine ⟨rfl, ?_, ?_⟩ <;> decide

/-- C8 witness: major version 101 against the recorded label "100". -/
theorem buildMSI_upgrade_code_guard_witness :
    toString w8V.major ≠ lastVersionLabel ∧
    ((buildMSI w8Env w8V).2 = some MsiErr.upgradeCodeOutdated ∧
      MsiEvent.runCandle ∉ (buildMSI w8Env w8V).1 ∧
      MsiEvent.runLight ∉ (buildMSI w8Env w8V).1) :=
  ⟨by decide, buildMSI_upgrade_code_guard w8Env w8V rfl (by decide)⟩

/-- C9: the `panic("unreachable")` after the second variant lookup is never
reached: for every environment, `uploadRelease` never ends with the panic
error, because every task in the filtered sign-task list already passed the
same lookup in the filtering loop. -/
theorem uploadRelease_panic_unreachable (b : Bool) (env : Env) (v : Version) :
    (uploadRelease b env v).2 ≠ some Err.panicUnreachable := by
  unfold uploadRelease
  cases hc : collectSignTasks env.getByVariant env.tasks with
  | error e =>
    simp only []
    intro hcon
    injection hcon with h
    rcases collectSignTasks_error_shape env.getByVariant env.tasks e hc with ⟨s, hs⟩
    rw [hs] at h
    exact Err.noConfusion h
  | ok st =>
    simp only []
    split
    · simp
    · cases hr : (processTasks env v st []).2.2 with
      | error err =>
        simp only []
        intro hcon
        injection hcon with h
        exact processTasks_error_not_panic env v st []
          (collectSignTasks_ok_mem env.getByVariant env.tasks st hc) (by rw [hr, h])
      | ok dls =>
        cases isStable v <;> simp

/-- C10: on a patch build `uploadRelease` prints the notice but does not
return: the rest of the run — reconciliation, downloads, checksums, uploads
and feed — is exactly the run of a non-patch build. -/
theorem uploadRelease_patch_notice_continues (env : Env) (v : Version) :
    uploadRelease true env v =
      (Event.patchNotice :: (uploadRelease false env v).1,
       (uploadRelease false env v).2) := by
  unfold uploadRelease
  cases hc : collectSignTasks env.getByVariant env.tasks with
  | error e => simp
  | ok st =>
    simp only []
    split
    · simp
    · cases hr : (processTasks env v st []).2.2 with
      | error err => simp
      | ok dls => cases isStable v <;> simp

end MongoToolsRelease
